import Mathlib

/-!
# Ripe: key normalisation, IV codec, AES-CBC layer and wire envelope

A shallow embedding of `src/lib/Ripe.cc` and `src/lib/RipeHelpers.cc`.

Conventions of the embedding

* A `std::string`, a `std::vector<byte>` and a `char`/`byte` buffer are all
  `List Nat`; a byte is a natural number below 256 and a character is its
  ASCII code (`':'` is 58, `' '` is 32, `'0'` is 48, `'a'` is 97).
* A `const char*` that the source reads as a C string (no length passed) is
  read up to its first zero byte, see `cString`.
* The collaborators that live outside the repository (the AES block
  primitive of OpenSSL, the Base64 codec of Crypto++ and `std::rand`) are
  the fields of `Primitives`; every theorem says which properties of them it
  relies on.
* A read that leaves a buffer sees the bytes that follow the buffer in
  memory; they are an explicit argument, `heap`, of the function that reads.
-/

namespace Ripe

/-! ## Characters -/

/-- ASCII code of `':'`. -/
def colon : Nat := 58

/-- ASCII code of `' '`. -/
def space : Nat := 32

/-- The constant `Ripe::AES_BSIZE`, which is OpenSSL's `AES_BLOCK_SIZE`. -/
def AES_BSIZE : Nat := 16

/-! ## Standard-library operations used by the source -/

/-- The call `std::copy(first, last, out)` where `src` is the range `[first, last)` and
`dst` is the content that starts at `out`: the first `src.length` positions are
overwritten. -/
def stdCopy (src dst : List Nat) : List Nat :=
  src ++ dst.drop src.length

/-- The call `std::string::insert(pos, str)` for `pos` within the string. -/
def strInsert (s : List Nat) (pos : Nat) (str : List Nat) : List Nat :=
  s.take pos ++ str ++ s.drop pos

/-- The bytes a C-string read sees at a pointer: everything before the first
zero byte. -/
def cString (mem : List Nat) : List Nat :=
  mem.takeWhile (fun b => b != 0)

/-- The call `std::string::find_first_of(c)`: index of the first occurrence of `c`,
`none` standing for `std::string::npos`. -/
def findFirstOf (s : List Nat) (c : Nat) : Option Nat :=
  match s with
  | [] => none
  | x :: xs => if x = c then some 0 else (findFirstOf xs c).map (· + 1)

/-- The call `std::string::substr(pos)` for `pos` within the string. -/
def substrFrom (s : List Nat) (pos : Nat) : List Nat :=
  s.drop pos

/-- The call `std::string::substr(0, n)`. -/
def substrTo (s : List Nat) (n : Nat) : List Nat :=
  s.take n

/-! ## Key normalisation (`Ripe::normalizeAESKey`) -/

/-- The function `Ripe::normalizeAESKey(keyBuffer, keySize)`: a 32-byte string of zeros
whose first `min(keySize, 32)` bytes are overwritten from `keyBuffer`. -/
def normalizeAESKey (keyBuffer : List Nat) (keySize : Nat) : List Nat :=
  let key32 : List Nat := List.replicate 32 0
  let result : List Nat := key32.take 32
  stdCopy (keyBuffer.take (min keySize 32)) result

/-! ## IV codec (`Ripe::normalizeIV`, `Ripe::ivToVector`) -/

/-- The loop of `normalizeIV`: `for (int j = 2; j < 32 + 15; j += 2)` whose
body inserts a space at `j` and then does `j++`. The first argument bounds the
number of iterations. -/
def normalizeIVLoop : Nat → Nat → List Nat → List Nat
  | 0, _, iv => iv
  | fuel + 1, j, iv =>
    if j < 32 + 15 then
      normalizeIVLoop fuel ((j + 1) + 2) (strInsert iv j [space])
    else iv

/-- The function `Ripe::normalizeIV(iv)`: returns the boolean result and the new content of
the in-out parameter `iv`. -/
def normalizeIV (iv : List Nat) : Bool × List Nat :=
  if iv.length = 32 then
    (true, normalizeIVLoop 47 2 iv)
  else
    (false, iv)

/-! ## Text formatting and parsing of numbers on streams -/

/-- The digit character of a digit value as an output stream prints it:
`'0'..'9'`, then lowercase `'a'..'f'` (no `std::uppercase` is set). -/
def digitChar (d : Nat) : Nat :=
  if d < 10 then 48 + d else 87 + d

/-- Digits of `n` in `base`, most significant first, pushed in front of `acc`.
The first argument bounds the number of digits. -/
def showNatAux (base : Nat) : Nat → Nat → List Nat → List Nat
  | 0, _, acc => acc
  | fuel + 1, n, acc =>
    if n / base = 0 then digitChar (n % base) :: acc
    else showNatAux base fuel (n / base) (digitChar (n % base) :: acc)

/-- The output `os << n` for an unsigned `n` in the given base (10 by default, 16 after
`std::hex`). -/
def showNat (base n : Nat) : List Nat :=
  showNatAux base (n + 1) n []

/-- The effect of `std::setw(w)` with `std::setfill(fill)` on the next
formatted item: it is padded on the left up to width `w`. -/
def setwFill (w fill : Nat) (item : List Nat) : List Nat :=
  List.replicate (w - item.length) fill ++ item

/-- The IV loop of `prepareData`: `ss << std::hex << std::setfill('0')`, then
`ss << std::setw(2) << static_cast<unsigned int>(b)` for every byte. -/
def hexOfBytes (iv : List Nat) : List Nat :=
  iv.flatMap (fun b => setwFill 2 48 (showNat 16 b))

/-- The test `std::isspace` in the "C" locale. -/
def isSpace (c : Nat) : Bool :=
  c == 32 || (9 ≤ c && c ≤ 13)

/-- Value of a hexadecimal digit character, if it is one. -/
def hexVal (c : Nat) : Option Nat :=
  if 48 ≤ c ∧ c ≤ 57 then some (c - 48)
  else if 97 ≤ c ∧ c ≤ 102 then some (c - 87)
  else if 65 ≤ c ∧ c ≤ 70 then some (c - 55)
  else none

/-- An optional sign in front of a number: whether it is `'-'`, and the rest. -/
def stripSign (s : List Nat) : Bool × List Nat :=
  match s with
  | c :: t => if c = 45 then (true, t) else if c = 43 then (false, t) else (false, s)
  | [] => (false, [])

/-- An optional `0x` or `0X` in front of a hexadecimal number. -/
def skipHexMarker (s : List Nat) : List Nat :=
  match s with
  | c :: x :: t => if c = 48 ∧ (x = 120 ∨ x = 88) then t else s
  | _ => s

/-- The longest run of hexadecimal digits at the front of the input: the value
accumulated, the number of digits read and the rest of the input. -/
def readHexDigits : List Nat → Nat → Nat → Nat × Nat × List Nat
  | [], acc, cnt => (acc, cnt, [])
  | c :: cs, acc, cnt =>
    match hexVal c with
    | some d => readHexDigits cs (acc * 16 + d) (cnt + 1)
    | none => (acc, cnt, c :: cs)

/-- The extraction `stream >> std::hex >> c` for `unsigned int c`: leading white space is
skipped, then an optional sign, an optional `0x` and the digits are read. The
result is the value and the rest of the stream, or `none` when the extraction
sets `failbit` (no digit, or a value that does not fit 32 bits). -/
def extractHex (s : List Nat) : Option (Nat × List Nat) :=
  let signed := stripSign (s.dropWhile isSpace)
  let digits := readHexDigits (skipHexMarker signed.2) 0 0
  if digits.2.1 = 0 then none
  else if 2 ^ 32 ≤ digits.1 then none
  else some (if signed.1 then (2 ^ 32 - digits.1) % 2 ^ 32 else digits.1, digits.2.2)

/-- The loop `while (stream >> std::hex >> c) ivAsHex.push_back(c);` where
`push_back` narrows the `unsigned int` to a `byte`. The first argument bounds
the number of iterations. -/
def ivToVectorLoop : Nat → List Nat → List Nat → List Nat
  | 0, _, ivAsHex => ivAsHex
  | fuel + 1, stream, ivAsHex =>
    match extractHex stream with
    | some (c, rest) => ivToVectorLoop fuel rest (ivAsHex ++ [c % 256])
    | none => ivAsHex

/-- The function `Ripe::ivToVector(iv)`: `iv` is read as a C string into a stream, whose
hexadecimal tokens become the bytes of the result. Every successful extraction
consumes at least one character, so `length + 1` iterations are enough. -/
def ivToVector (iv : List Nat) : List Nat :=
  let stream := cString iv
  ivToVectorLoop (stream.length + 1) stream []

/-! ## Collaborators outside the repository -/

/-- The operations the source takes from other libraries. -/
structure Primitives where
  /-- OpenSSL's `AES_encrypt` on one 16-byte block under the schedule that
  `AES_set_encrypt_key(key, 256, _)` derives from `key`. -/
  aesEncryptBlock : List Nat → List Nat → List Nat
  /-- OpenSSL's `AES_decrypt` on one 16-byte block under the schedule that
  `AES_set_decrypt_key(key, 256, _)` derives from `key`. -/
  aesDecryptBlock : List Nat → List Nat → List Nat
  /-- Crypto++ `Base64Encoder` without line breaks (`Ripe::base64Encode`). -/
  base64Encode : List Nat → List Nat
  /-- Crypto++ `Base64Decoder` (`Ripe::base64Decode`). -/
  base64Decode : List Nat → List Nat
  /-- The value of the `i`-th call of `std::rand()` after
  `std::srand(std::time(0))`. -/
  rand : Nat → Nat

/-- The AES block primitive maps a 16-byte block to a 16-byte block. -/
def Primitives.BlockToBlock (P : Primitives) : Prop :=
  ∀ key blk : List Nat, blk.length = 16 → (∀ b ∈ blk, b < 256) →
    (P.aesEncryptBlock key blk).length = 16 ∧ ∀ b ∈ P.aesEncryptBlock key blk, b < 256

/-- The AES block primitive is a keyed permutation: decryption under a key
inverts encryption under the same key. -/
def Primitives.AESInverts (P : Primitives) : Prop :=
  ∀ key blk : List Nat, blk.length = 16 → (∀ b ∈ blk, b < 256) →
    P.aesDecryptBlock key (P.aesEncryptBlock key blk) = blk

/-- Base64 decoding inverts Base64 encoding of a byte string. -/
def Primitives.Base64Inverts (P : Primitives) : Prop :=
  ∀ bytes : List Nat, (∀ b ∈ bytes, b < 256) →
    P.base64Decode (P.base64Encode bytes) = bytes

/-- Base64 text contains no colon: the alphabet is letters, digits, `+`, `/`
and the padding `=`. -/
def Primitives.Base64NoColon (P : Primitives) : Prop :=
  ∀ bytes : List Nat, colon ∉ P.base64Encode bytes

/-! ## AES-256-CBC (`AES_cbc_encrypt` of OpenSSL over the block primitive) -/

/-- Byte-wise exclusive or of two blocks. -/
def xorBytes (a b : List Nat) : List Nat :=
  List.zipWith (fun x y => x ^^^ y) a b

/-- A final partial block extended with zero bytes to 16 bytes. -/
def padBlock (blk : List Nat) : List Nat :=
  blk ++ List.replicate (16 - blk.length) 0

/-- CBC encryption of `n` blocks: each input block, the last one zero-extended
when it is partial, is xored with the previous cipher block (the IV at first)
and encrypted; a full 16-byte block is written for every input block. -/
def cbcEncryptLoop (E : List Nat → List Nat) : Nat → List Nat → List Nat → List Nat
  | 0, _, _ => []
  | n + 1, ivec, inp =>
    let out := E (xorBytes (padBlock (inp.take 16)) ivec)
    out ++ cbcEncryptLoop E n out (inp.drop 16)

/-- CBC decryption of `n` blocks out of `len` bytes: the primitive decrypts
the 16 bytes that are at the buffer, also when fewer than 16 bytes of the
length are left, and the result is xored with the previous cipher block (the
IV at first); of a final partial block only the bytes within the length are
written. The list `inp` is the memory at the input pointer; it may hold more
bytes than the length, and where it ends the memory is not modelled. -/
def cbcDecryptLoop (D : List Nat → List Nat) : Nat → List Nat → List Nat → Nat → List Nat
  | 0, _, _, _ => []
  | n + 1, ivec, inp, len =>
    let blk := inp.take 16
    let out := (xorBytes (D blk) ivec).take (min 16 len)
    out ++ cbcDecryptLoop D n blk (inp.drop 16) (len - 16)

/-- The call `AES_cbc_encrypt(in, out, length, key, ivec, enc)`: the bytes
written at `out`, for `enc = AES_ENCRYPT` (`true`) or `AES_DECRYPT` (`false`).
The number of blocks processed is `length` divided by 16, rounded up.
Encryption reads `length` bytes of `in`; decryption reads whole blocks. The
update of `ivec` in place is left out: no caller reads `ivArr` after the
call. -/
def AES_cbc_encrypt (P : Primitives) (inp : List Nat) (length : Nat) (key ivec : List Nat)
    (enc : Bool) : List Nat :=
  let blocks := (length + 15) / 16
  if enc then cbcEncryptLoop (P.aesEncryptBlock key) blocks ivec (inp.take length)
  else cbcDecryptLoop (P.aesDecryptBlock key) blocks ivec inp length

/-! ## Symmetric layer (`Ripe::encryptAES`, `Ripe::decryptAES`) -/

/-- The function `Ripe::encryptAES(buffer, length, key, keySize, iv)`: the
returned ciphertext string and the content of the out-parameter `iv`. The
primitive writes whole blocks starting at `encryptedBuffer`; the returned
string is made of the first `length` bytes found there, `length` having been
rounded up. -/
def encryptAES (P : Primitives) (buffer : List Nat) (length : Nat) (key : List Nat)
    (keySize : Nat) : List Nat × List Nat :=
  let ivArr : List Nat := (List.range AES_BSIZE).map (fun i => P.rand i % 256)
  let iv := stdCopy ivArr (List.replicate ivArr.length 0)
  let normalizedKey := normalizeAESKey key keySize
  let encryptedBuffer := AES_cbc_encrypt P buffer length normalizedKey ivArr true
  let length :=
    if length % AES_BSIZE ≠ 0 then ((length / AES_BSIZE) + 1) * AES_BSIZE else length
  let result := encryptedBuffer.take length
  (result, iv)

/-- The function `Ripe::decryptAES(buffer, length, key, keySize, iv)`. The
result is built by `std::string(const char*)`, which reads from the start of
`decryptedBuffer` up to the first zero byte; `decryptedBuffer` is `length`
bytes long and `heap` stands for the bytes that follow it in memory, which
that read reaches when the buffer holds no zero byte. -/
def decryptAES (P : Primitives) (buffer : List Nat) (length : Nat) (key : List Nat)
    (keySize : Nat) (iv : List Nat) (heap : List Nat) : List Nat :=
  let ivArr := stdCopy iv (List.replicate AES_BSIZE 0)
  let normalizedKey := normalizeAESKey key keySize
  let decryptedBuffer := AES_cbc_encrypt P buffer length normalizedKey ivArr false
  let result := cString (decryptedBuffer ++ heap)
  result

/-- Modelled from the spec: the overload `Ripe::decryptAES(const char* buffer,
const std::string& hexKey, byte* iv)` that `RipeHelpers::decryptAES` calls is
declared in `include/Ripe.h`, which is not among the sources. By the spec's
deserialize steps 3 and 4 the raw ciphertext, the key with its length and the
IV recovered from the hex tokens go to the symmetric decryption. The call site
passes `data.data()` without a length; the spec hands over the ciphertext
whole, and so does this definition. -/
def decryptAESHex (P : Primitives) (buffer hexKey iv heap : List Nat) : List Nat :=
  decryptAES P buffer buffer.length hexKey hexKey.length (ivToVector iv) heap

/-! ## Wire envelope (`Ripe::prepareData`, `RipeHelpers::decryptAES`) -/

/-- The function `Ripe::prepareData(data, length, key, keySize, clientId)`;
`clientId` is the content of the C string, so that `strlen(clientId)` is its
length. -/
def prepareData (P : Primitives) (data : List Nat) (length : Nat) (key : List Nat)
    (keySize : Nat) (clientId : List Nat) : List Nat :=
  let enc := encryptAES P data length key keySize
  let encrypted := enc.1
  let iv := enc.2
  let base64Encoded := P.base64Encode encrypted
  let ss := hexOfBytes iv
  let ss := ss ++ [colon]
  let ss := if clientId.length > 0 then ss ++ clientId ++ [colon] else ss
  let ss := ss ++ base64Encoded
  let ssstr := ss
  showNat 10 ssstr.length ++ [colon] ++ ssstr

end Ripe

namespace RipeHelpers

open Ripe

/-- The function `RipeHelpers::decryptAES(d, hexKey, ivec, isBase64)`: the
returned string and the content of the in-out parameter `ivec`. -/
def decryptAES (P : Primitives) (d hexKey ivec : List Nat) (isBase64 : Bool)
    (heap : List Nat) : List Nat × List Nat :=
  let data := d
  let extracted : List Nat × List Nat :=
    if ivec.isEmpty && isBase64 then
      if findFirstOf data colon = some 32 then
        let ivec := (normalizeIV (substrTo data 32)).2
        let data := substrFrom data (32 + 1)
        match findFirstOf data colon with
        | some pos => (substrFrom data (pos + 1), ivec)
        | none => (data, ivec)
      else (data, ivec)
    else (data, ivec)
  let data := extracted.1
  let ivec := extracted.2
  let ivec := if ivec.length = 32 then (normalizeIV ivec).2 else ivec
  let iv := ivec
  let data := if isBase64 then P.base64Decode data else data
  (decryptAESHex P data hexKey iv heap, ivec)

end RipeHelpers

/-! ## A concrete instance of the collaborators

The theorems below hold for every `Primitives` with the properties they name.
`Demo.prims` is one such instance, used to evaluate the code on concrete
inputs: Base64 is the standard codec; the block primitive is a small keyed
permutation of 16-byte blocks standing in for AES.
-/

namespace Demo

open Ripe

/-- The character of a 6-bit value in the standard Base64 alphabet. -/
def b64Char (i : Nat) : Nat :=
  if i < 26 then 65 + i
  else if i < 52 then 97 + (i - 26)
  else if i < 62 then 48 + (i - 52)
  else if i = 62 then 43
  else 47

/-- The 6-bit value of a character of the Base64 alphabet, if it is one. -/
def b64Val (c : Nat) : Option Nat :=
  if 65 ≤ c ∧ c ≤ 90 then some (c - 65)
  else if 97 ≤ c ∧ c ≤ 122 then some (c - 97 + 26)
  else if 48 ≤ c ∧ c ≤ 57 then some (c - 48 + 52)
  else if c = 43 then some 62
  else if c = 47 then some 63
  else none

/-- Base64 encoding with `=` padding and no line breaks. -/
def base64Encode : List Nat → List Nat
  | a :: b :: c :: rest =>
    b64Char (a / 4) :: b64Char (a % 4 * 16 + b / 16) :: b64Char (b % 16 * 4 + c / 64)
      :: b64Char (c % 64) :: base64Encode rest
  | [a, b] => [b64Char (a / 4), b64Char (a % 4 * 16 + b / 16), b64Char (b % 16 * 4), 61]
  | [a] => [b64Char (a / 4), b64Char (a % 4 * 16), 61, 61]
  | [] => []

/-- The bytes that a sequence of 6-bit values holds; left-over bits that do
not fill a byte are dropped. -/
def sextetsToBytes : List Nat → List Nat
  | w :: x :: y :: z :: rest =>
    (w * 4 + x / 16) :: (x % 16 * 16 + y / 4) :: (y % 4 * 64 + z) :: sextetsToBytes rest
  | [w, x, y] => [w * 4 + x / 16, x % 16 * 16 + y / 4]
  | [w, x] => [w * 4 + x / 16]
  | _ => []

/-- Base64 decoding: characters outside the alphabet (the padding included)
are skipped. -/
def base64Decode (s : List Nat) : List Nat :=
  sextetsToBytes (s.filterMap b64Val)

/-- The first 16 bytes of the key, zero-extended. -/
def keyBlock (key : List Nat) : List Nat :=
  padBlock ((key.take 16).map (fun b => b % 256))

/-- Block encryption of the stand-in cipher: xor with the key block, then
reverse the byte order. -/
def encryptBlock (key blk : List Nat) : List Nat :=
  (xorBytes blk (keyBlock key)).reverse

/-- Block decryption of the stand-in cipher. -/
def decryptBlock (key blk : List Nat) : List Nat :=
  xorBytes blk.reverse (keyBlock key)

/-- The pseudo-random values: a linear congruential sequence. -/
def rand (i : Nat) : Nat :=
  (1103515245 * (i + 1) + 12345) % 2147483648

/-- The concrete collaborators. -/
def prims : Primitives where
  aesEncryptBlock := encryptBlock
  aesDecryptBlock := decryptBlock
  base64Encode := base64Encode
  base64Decode := base64Decode
  rand := rand

/-- The bytes of a text. -/
def bytesOf (s : String) : List Nat :=
  s.toList.map Char.toNat

end Demo

/-! ## Reference notions used to state the properties -/

namespace Ripe

/-- The consecutive two-character pairs of a string. -/
def pairsOf : List Nat → List (List Nat)
  | a :: b :: rest => [a, b] :: pairsOf rest
  | [a] => [[a]]
  | [] => []

/-- Every pair of a string preceded by one space. -/
def spacedTail : List Nat → List Nat
  | a :: b :: rest => space :: a :: b :: spacedTail rest
  | _ => []

/-- A spaced string with the separator after each pair removed, that is
without the characters at the positions 2, 5, 8, and so on. -/
def dropSeparators : List Nat → List Nat
  | a :: b :: _ :: rest => a :: b :: dropSeparators rest
  | s => s


/-- The number that a string of decimal digits denotes. -/
def decValue (s : List Nat) : Nat :=
  s.foldl (fun acc c => acc * 10 + (c - 48)) 0

/-- A byte as two lowercase hexadecimal digits, zero-padded. -/
def hexPair (b : Nat) : List Nat :=
  [digitChar (b / 16), digitChar (b % 16)]


/-- The payload section of the envelope in the words of the wire format: the
hex IV, a colon, the client id with its own colon when it is not empty, and
the Base64 ciphertext. -/
def envelopePayload (P : Primitives) (data : List Nat) (length : Nat) (key : List Nat)
    (keySize : Nat) (clientId : List Nat) : List Nat :=
  (encryptAES P data length key keySize).2.flatMap hexPair ++ [colon]
    ++ (if clientId = [] then [] else clientId ++ [colon])
    ++ P.base64Encode (encryptAES P data length key keySize).1

/-- An envelope without its leading length field and the colon after it. -/
def stripLengthField (e : List Nat) : List Nat :=
  match findFirstOf e colon with
  | some pos => e.drop (pos + 1)
  | none => e


/-- A stream position at which a run of digits ends: the end of the stream or
a space. -/
def TokenEnd (rest : List Nat) : Prop :=
  rest = [] ∨ ∃ t, rest = space :: t

end Ripe

namespace Demo

/-- The 32-byte key of the scenario. -/
def key : List Nat := bytesOf "0123456789abcdef0123456789abcdef"

/-- The plaintext of the scenario, 11 bytes. -/
def hello : List Nat := bytesOf "hello world"

/-- The client id of the scenario. -/
def client1 : List Nat := bytesOf "client1"

/-- A plaintext of exactly one block, 16 bytes, none of them zero. -/
def oneBlock : List Nat := bytesOf "0123456789abcdef"

/-- Memory behind a buffer: the byte `'!'`, then a zero byte. -/
def heapBang : List Nat := [33, 0]

end Demo

/-! # Properties -/

namespace Ripe

/-! ## Key normalisation -/

theorem normalizeAESKey_eq (k : List Nat) (keySize : Nat) :
    normalizeAESKey k keySize
      = k.take (min keySize 32) ++ List.replicate (32 - (k.take (min keySize 32)).length) 0 := by
  simp only [normalizeAESKey, stdCopy, List.take_replicate, List.drop_replicate, Nat.min_self]

/-- C1: `normalizeAESKey(k, len(k))` has exactly 32 bytes for every `k`; when
`len(k) ≤ 32` its first `len(k)` bytes are `k` and all later bytes are zero;
when `len(k) > 32` it is the first 32 bytes of `k`. The function is total: no
input yields an error. -/
theorem normalizeAESKey_contract (k : List Nat) :
    (normalizeAESKey k k.length).length = 32 ∧
    (k.length ≤ 32 →
      (normalizeAESKey k k.length).take k.length = k ∧
      (∀ i, k.length ≤ i → i < 32 → (normalizeAESKey k k.length)[i]? = some 0) ∧
      normalizeAESKey k k.length = k ++ List.replicate (32 - k.length) 0) ∧
    (32 < k.length → normalizeAESKey k k.length = k.take 32) := by
  rw [normalizeAESKey_eq]
  refine ⟨?_, ?_, ?_⟩
  · simp
  · intro h
    have hm : min k.length 32 = k.length := by omega
    rw [hm, List.take_length]
    refine ⟨by simp, ?_, rfl⟩
    intro i h1 h2
    rw [List.getElem?_append_right h1]
    simp [List.getElem?_replicate]
    omega
  · intro h
    have hm : min k.length 32 = 32 := by omega
    rw [hm]
    simp
    omega

/-- Instance of C1 at a 3-byte key and at a 40-byte key. -/
theorem normalizeAESKey_contract_witness :
    (normalizeAESKey [1, 2, 3] 3).take 3 = [1, 2, 3] ∧
    normalizeAESKey (List.replicate 40 7) 40 = (List.replicate 40 7).take 32 :=
  ⟨((normalizeAESKey_contract [1, 2, 3]).2.1 (by decide)).1,
   (normalizeAESKey_contract (List.replicate 40 7)).2.2 (by decide)⟩


/-! ## The spaced form of an IV -/

theorem normalizeIVLoop_spec (n : Nat) : ∀ (fuel j : Nat) (A B : List Nat),
    n ≤ fuel → A.length = j → j + 3 * n = 47 → B.length = 2 * n →
    normalizeIVLoop fuel j (A ++ B) = A ++ spacedTail B := by
  induction n with
  | zero =>
    intro fuel j A B _ hA hj hB
    have hB' : B = [] := List.length_eq_zero.mp (by omega)
    subst hB'
    cases fuel with
    | zero => simp [normalizeIVLoop, spacedTail]
    | succ f =>
      have : ¬ j < 32 + 15 := by omega
      simp [normalizeIVLoop, spacedTail, this]
  | succ n ih =>
    intro fuel j A B hf hA hj hB
    match B, hB with
    | a :: b :: rest, hB =>
      cases fuel with
      | zero => omega
      | succ f =>
        have hlt : j < 32 + 15 := by omega
        have hins : strInsert (A ++ a :: b :: rest) j [space]
            = (A ++ [space, a, b]) ++ rest := by
          subst hA
          simp [strInsert]
        rw [normalizeIVLoop, if_pos hlt, hins,
          ih f (j + 1 + 2) (A ++ [space, a, b]) rest (by omega)
            (by simp; omega) (by omega) (by simp at hB; omega)]
        simp [spacedTail]

theorem normalizeIV_eq (a b : Nat) (rest : List Nat) (h : rest.length = 30) :
    normalizeIV (a :: b :: rest) = (true, a :: b :: spacedTail rest) := by
  have hl : (a :: b :: rest).length = 32 := by simp [h]
  rw [normalizeIV, if_pos hl]
  have := normalizeIVLoop_spec 15 47 2 [a, b] rest (by omega) rfl (by omega) (by omega)
  simpa using this

theorem spacedTail_props (n : Nat) : ∀ (a b : Nat) (rest : List Nat), rest.length = 2 * n →
    List.intercalate [space] (pairsOf (a :: b :: rest)) = a :: b :: spacedTail rest ∧
    (spacedTail rest).length = 3 * n ∧
    (pairsOf (a :: b :: rest)).length = n + 1 ∧
    (∀ p ∈ pairsOf (a :: b :: rest), p.length = 2) ∧
    (pairsOf (a :: b :: rest)).flatten = a :: b :: rest ∧
    dropSeparators (a :: b :: spacedTail rest) = a :: b :: rest ∧
    (space ∉ a :: b :: rest →
      (a :: b :: spacedTail rest).filter (fun c => c != space) = a :: b :: rest) := by
  induction n with
  | zero =>
    intro a b rest h
    have h0 : rest = [] := List.length_eq_zero.mp (by omega)
    subst h0
    simp [pairsOf, spacedTail, List.intercalate, dropSeparators]
    intro h1 h2
    exact ⟨fun h => h1 h.symm, fun h => h2 h.symm⟩
  | succ n ih =>
    intro a b rest h
    match rest, h with
    | c :: d :: rest, h =>
      obtain ⟨h1, h2, h3, h4, h5, h6, h7⟩ := ih c d rest (by simp at h; omega)
      refine ⟨?_, ?_, ?_, ?_, ?_, ?_, ?_⟩
      · rw [pairsOf, spacedTail, ← h1]
        simp [List.intercalate, pairsOf]
      · simp [spacedTail, h2]; omega
      · rw [pairsOf, List.length_cons, h3]
      · intro p hp
        rw [pairsOf] at hp
        rcases List.mem_cons.mp hp with hp | hp
        · simp [hp]
        · exact h4 p hp
      · rw [pairsOf, List.flatten_cons, h5]; rfl
      · rw [spacedTail, dropSeparators, h6]
      · intro hs
        have hs' : space ∉ c :: d :: rest := fun hm =>
          hs (List.mem_cons_of_mem _ (List.mem_cons_of_mem _ hm))
        have ha : a ≠ space := fun e => hs (by simp [e])
        have hb : b ≠ space := fun e => hs (by simp [e])
        have := h7 hs'
        simp only [spacedTail]
        simp [List.filter_cons, ha, hb] at this ⊢
        exact this

/-- The spaced form of a 32-character string has 47 characters. -/
theorem normalizeIV_length (s : List Nat) (h : s.length = 32) :
    (normalizeIV s).2.length = 47 := by
  match s, h with
  | a :: b :: rest, h =>
    have hr : rest.length = 2 * 15 := by simp at h; omega
    rw [normalizeIV_eq a b rest (by omega)]
    simp [(spacedTail_props 15 a b rest hr).2.1]

/-- C9: `normalizeIV(s)` returns false and leaves `s` unchanged when
`len(s) ≠ 32`. When `len(s) = 32` it returns true and `s` becomes its 16
two-character pairs, in order, joined by one space between adjacent pairs and
with no space added in front or at the end: a string of 47 characters from
which removing the separators (or, when `s` itself holds no space, removing
all spaces) gives back `s`. -/
theorem normalizeIV_contract (s : List Nat) :
    (s.length ≠ 32 → normalizeIV s = (false, s)) ∧
    (s.length = 32 →
      (normalizeIV s).1 = true ∧
      (normalizeIV s).2 = List.intercalate [space] (pairsOf s) ∧
      (normalizeIV s).2.length = 47 ∧
      (pairsOf s).length = 16 ∧ (∀ p ∈ pairsOf s, p.length = 2) ∧ (pairsOf s).flatten = s ∧
      dropSeparators (normalizeIV s).2 = s ∧
      (space ∉ s → (normalizeIV s).2.filter (fun c => c != space) = s)) := by
  constructor
  · intro h
    simp [normalizeIV, h]
  · intro h
    match s, h with
    | a :: b :: rest, h =>
      have hr : rest.length = 2 * 15 := by simp at h; omega
      obtain ⟨h1, h2, h3, h4, h5, h6, h7⟩ := spacedTail_props 15 a b rest hr
      rw [normalizeIV_eq a b rest (by omega)]
      refine ⟨rfl, h1.symm, ?_, h3, h4, h5, h6, h7⟩
      simp [h2]

/-- Instance of C9 at a 3-character string and at a 32-character string. -/
theorem normalizeIV_contract_witness :
    normalizeIV [97, 98, 99] = (false, [97, 98, 99]) ∧
    (normalizeIV (List.replicate 32 97)).2.length = 47 :=
  ⟨(normalizeIV_contract [97, 98, 99]).1 (by decide),
   ((normalizeIV_contract (List.replicate 32 97)).2 (by decide)).2.2.1⟩


/-! ## CBC over a block primitive -/

theorem padBlock_length (blk : List Nat) (h : blk.length ≤ 16) : (padBlock blk).length = 16 := by
  simp [padBlock]; omega

theorem padBlock_bytes (blk : List Nat) (h : ∀ b ∈ blk, b < 256) :
    ∀ b ∈ padBlock blk, b < 256 := by
  intro b hb
  simp only [padBlock, List.mem_append, List.mem_replicate] at hb
  rcases hb with hb | ⟨_, rfl⟩
  · exact h b hb
  · decide

theorem xorBytes_length (a b : List Nat) (ha : a.length = 16) (hb : b.length = 16) :
    (xorBytes a b).length = 16 := by
  simp [xorBytes, ha, hb]

theorem xorBytes_bytes (a b : List Nat) (ha : ∀ x ∈ a, x < 256) (hb : ∀ x ∈ b, x < 256) :
    ∀ x ∈ xorBytes a b, x < 256 := by
  induction a generalizing b with
  | nil => simp [xorBytes]
  | cons x xs ih =>
    cases b with
    | nil => simp [xorBytes]
    | cons y ys =>
      intro z hz
      simp only [xorBytes, List.zipWith_cons_cons, List.mem_cons] at hz
      rcases hz with rfl | hz
      · exact Nat.xor_lt_two_pow (n := 8) (ha x (by simp)) (hb y (by simp))
      · exact ih ys (fun w hw => ha w (by simp [hw])) (fun w hw => hb w (by simp [hw])) z hz

theorem xorBytes_cancel (a b : List Nat) (h : a.length = b.length) :
    xorBytes (xorBytes a b) b = a := by
  induction a generalizing b with
  | nil => simp [xorBytes]
  | cons x xs ih =>
    cases b with
    | nil => simp at h
    | cons y ys =>
      have := ih ys (by simpa using h)
      simp only [xorBytes, List.zipWith_cons_cons] at this ⊢
      rw [this, Nat.xor_cancel_right]

theorem take_bytes (l : List Nat) (n : Nat) (h : ∀ b ∈ l, b < 256) : ∀ b ∈ l.take n, b < 256 :=
  fun b hb => h b (List.mem_of_mem_take hb)

theorem drop_bytes (l : List Nat) (n : Nat) (h : ∀ b ∈ l, b < 256) : ∀ b ∈ l.drop n, b < 256 :=
  fun b hb => h b (List.mem_of_mem_drop hb)

/-- The input block that one CBC encryption step hands to the primitive is a
16-byte block. -/
theorem cbc_block_ok (ivec inp : List Nat) (hiv : ivec.length = 16)
    (hivb : ∀ b ∈ ivec, b < 256) (hinp : ∀ b ∈ inp, b < 256) :
    (xorBytes (padBlock (inp.take 16)) ivec).length = 16 ∧
    ∀ b ∈ xorBytes (padBlock (inp.take 16)) ivec, b < 256 := by
  have hl : (padBlock (inp.take 16)).length = 16 :=
    padBlock_length _ (by simp)
  exact ⟨xorBytes_length _ _ hl hiv,
    xorBytes_bytes _ _ (padBlock_bytes _ (take_bytes _ _ hinp)) hivb⟩

theorem cbcEncryptLoop_length (P : Primitives) (hP : P.BlockToBlock) (key : List Nat) (n : Nat) :
    ∀ ivec inp : List Nat, ivec.length = 16 → (∀ b ∈ ivec, b < 256) → (∀ b ∈ inp, b < 256) →
      (cbcEncryptLoop (P.aesEncryptBlock key) n ivec inp).length = 16 * n ∧
      ∀ b ∈ cbcEncryptLoop (P.aesEncryptBlock key) n ivec inp, b < 256 := by
  induction n with
  | zero => intro ivec inp _ _ _; simp [cbcEncryptLoop]
  | succ n ih =>
    intro ivec inp hiv hivb hinp
    obtain ⟨hx1, hx2⟩ := cbc_block_ok ivec inp hiv hivb hinp
    obtain ⟨ho1, ho2⟩ := hP key _ hx1 hx2
    obtain ⟨hr1, hr2⟩ := ih _ (inp.drop 16) ho1 ho2 (drop_bytes _ _ hinp)
    simp only [cbcEncryptLoop]
    refine ⟨?_, ?_⟩
    · rw [List.length_append, ho1, hr1]; omega
    · intro b hb
      rcases List.mem_append.mp hb with hb | hb
      · exact ho2 b hb
      · exact hr2 b hb

theorem cbcDecrypt_cbcEncrypt (P : Primitives) (hP : P.BlockToBlock) (hI : P.AESInverts)
    (key : List Nat) (n : Nat) :
    ∀ ivec inp : List Nat, ivec.length = 16 → (∀ b ∈ ivec, b < 256) → (∀ b ∈ inp, b < 256) →
      inp.length ≤ 16 * n →
      cbcDecryptLoop (P.aesDecryptBlock key) n ivec
          (cbcEncryptLoop (P.aesEncryptBlock key) n ivec inp) (16 * n)
        = inp ++ List.replicate (16 * n - inp.length) 0 := by
  induction n with
  | zero =>
    intro ivec inp _ _ _ hlen
    have : inp = [] := List.length_eq_zero.mp (by omega)
    simp [cbcDecryptLoop, this]
  | succ n ih =>
    intro ivec inp hiv hivb hinp hlen
    obtain ⟨hx1, hx2⟩ := cbc_block_ok ivec inp hiv hivb hinp
    obtain ⟨ho1, ho2⟩ := hP key _ hx1 hx2
    have hl : (padBlock (inp.take 16)).length = 16 := padBlock_length _ (by simp)
    have hrec := ih _ (inp.drop 16) ho1 ho2 (drop_bytes _ _ hinp)
      (by simp only [List.length_drop]; omega)
    simp only [cbcEncryptLoop, cbcDecryptLoop]
    have htake : ∀ r : List Nat,
        (P.aesEncryptBlock key (xorBytes (padBlock (inp.take 16)) ivec) ++ r).take 16
          = P.aesEncryptBlock key (xorBytes (padBlock (inp.take 16)) ivec) := by
      intro r
      rw [List.take_append_of_le_length (by omega), List.take_of_length_le (by omega)]
    have hdrop : ∀ r : List Nat,
        (P.aesEncryptBlock key (xorBytes (padBlock (inp.take 16)) ivec) ++ r).drop 16 = r := by
      intro r
      rw [List.drop_append_of_le_length (by omega), List.drop_of_length_le (by omega)]
      rfl
    have hmin : min 16 (16 * (n + 1)) = 16 := by omega
    have hsub : 16 * (n + 1) - 16 = 16 * n := by omega
    rw [htake, hdrop, hI key _ hx1 hx2, xorBytes_cancel _ _ (by omega), hmin, hsub, hrec,
      List.take_of_length_le (by omega)]
    simp only [padBlock, List.length_take, List.length_drop, List.append_assoc]
    by_cases h16 : 16 ≤ inp.length
    · have e1 : 16 - min 16 inp.length = 0 := by omega
      have e2 : 16 * n - (inp.length - 16) = 16 * (n + 1) - inp.length := by omega
      rw [e1, e2]
      simp only [List.replicate_zero, List.nil_append]
      rw [← List.append_assoc, List.take_append_drop]
    · have e0 : inp.drop 16 = [] := List.drop_of_length_le (by omega)
      have e1 : inp.take 16 = inp := List.take_of_length_le (by omega)
      have e2 : inp.length - 16 = 0 := by omega
      rw [e0, e1, e2]
      simp only [List.nil_append, Nat.sub_zero]
      rw [← List.replicate_add]
      congr 2
      omega

/-! ## The symmetric layer -/

theorem cString_append_zero (p rest : List Nat) (hp : 0 ∉ p) : cString (p ++ 0 :: rest) = p := by
  unfold cString
  rw [List.takeWhile_append_of_pos]
  · simp
  · intro a ha
    have : a ≠ 0 := fun e => hp (e ▸ ha)
    simpa using this

theorem cString_append_of_not_mem (p rest : List Nat) (hp : 0 ∉ p) :
    cString (p ++ rest) = p ++ cString rest := by
  unfold cString
  rw [List.takeWhile_append_of_pos]
  intro a ha
  have : a ≠ 0 := fun e => hp (e ▸ ha)
  simpa using this

theorem cString_no_zero (mem : List Nat) : 0 ∉ cString mem := by
  intro h
  have := List.mem_takeWhile_imp h
  simp at this

/-- The IV that `encryptAES` draws: 16 bytes. -/
theorem encryptAES_iv (P : Primitives) (buffer : List Nat) (length : Nat) (key : List Nat)
    (keySize : Nat) :
    (encryptAES P buffer length key keySize).2 = (List.range 16).map (fun i => P.rand i % 256) ∧
    (encryptAES P buffer length key keySize).2.length = 16 ∧
    ∀ b ∈ (encryptAES P buffer length key keySize).2, b < 256 := by
  have h : (encryptAES P buffer length key keySize).2
      = (List.range 16).map (fun i => P.rand i % 256) := by
    simp [encryptAES, stdCopy, AES_BSIZE]
  rw [h]
  refine ⟨rfl, by simp, ?_⟩
  intro b hb
  obtain ⟨i, _, rfl⟩ := List.mem_map.mp hb
  exact Nat.mod_lt _ (by decide)

/-- The ciphertext of `encryptAES` is the CBC encryption of the plaintext,
whole blocks only. -/
theorem encryptAES_ciphertext (P : Primitives) (hP : P.BlockToBlock) (buffer key : List Nat)
    (keySize : Nat) (hb : ∀ b ∈ buffer, b < 256) :
    (encryptAES P buffer buffer.length key keySize).1
      = cbcEncryptLoop (P.aesEncryptBlock (normalizeAESKey key keySize))
          ((buffer.length + 15) / 16) (encryptAES P buffer buffer.length key keySize).2 buffer ∧
    (encryptAES P buffer buffer.length key keySize).1.length = 16 * ((buffer.length + 15) / 16) ∧
    ∀ b ∈ (encryptAES P buffer buffer.length key keySize).1, b < 256 := by
  obtain ⟨hiv, hivl, hivb⟩ := encryptAES_iv P buffer buffer.length key keySize
  obtain ⟨hl, hbytes⟩ := cbcEncryptLoop_length P hP (normalizeAESKey key keySize)
    ((buffer.length + 15) / 16) _ buffer hivl hivb hb
  have h : (encryptAES P buffer buffer.length key keySize).1
      = cbcEncryptLoop (P.aesEncryptBlock (normalizeAESKey key keySize))
          ((buffer.length + 15) / 16) (encryptAES P buffer buffer.length key keySize).2 buffer := by
    rw [hiv] at hl ⊢
    simp only [encryptAES, AES_cbc_encrypt, AES_BSIZE, List.take_length, if_true]
    apply List.take_of_length_le
    rw [hl]
    split <;> omega
  rw [h]
  exact ⟨rfl, hl, hbytes⟩

/-- C7: for a plaintext of `n` bytes (`n = 0` included) the ciphertext that
`encryptAES` returns has the least multiple of 16 that is at least `n` as its
length: `n` when 16 divides `n` and `(n / 16 + 1) * 16` otherwise; so the
length is a multiple of 16, at least `n` and below `n + 16`. -/
theorem encryptAES_length (P : Primitives) (hP : P.BlockToBlock) (buffer key : List Nat)
    (keySize : Nat) (hb : ∀ b ∈ buffer, b < 256) :
    (encryptAES P buffer buffer.length key keySize).1.length
      = (if buffer.length % 16 = 0 then buffer.length else (buffer.length / 16 + 1) * 16) ∧
    16 ∣ (encryptAES P buffer buffer.length key keySize).1.length ∧
    buffer.length ≤ (encryptAES P buffer buffer.length key keySize).1.length ∧
    (encryptAES P buffer buffer.length key keySize).1.length < buffer.length + 16 ∧
    ∀ m, 16 ∣ m → buffer.length ≤ m →
      (encryptAES P buffer buffer.length key keySize).1.length ≤ m := by
  obtain ⟨_, hl, _⟩ := encryptAES_ciphertext P hP buffer key keySize hb
  rw [hl]
  refine ⟨by split <;> omega, Dvd.intro _ rfl, by omega, by omega, ?_⟩
  intro m hm hle
  obtain ⟨q, rfl⟩ := hm
  omega

/-- C8: `decryptAES` returns the raw CBC decryption of the ciphertext cut at
its first zero byte: when the raw decrypted bytes hold a zero byte, at smallest
index `i`, the result is exactly their first `i` bytes; and the result never
contains a zero byte. -/
theorem decryptAES_cut_at_zero (P : Primitives) (c key : List Nat) (keySize : Nat)
    (iv heap : List Nat) (i : Nat)
    (hi : (AES_cbc_encrypt P c c.length (normalizeAESKey key keySize)
      (stdCopy iv (List.replicate AES_BSIZE 0)) false)[i]? = some 0)
    (hfirst : ∀ j, j < i → (AES_cbc_encrypt P c c.length (normalizeAESKey key keySize)
      (stdCopy iv (List.replicate AES_BSIZE 0)) false)[j]? ≠ some 0) :
    decryptAES P c c.length key keySize iv heap
      = (AES_cbc_encrypt P c c.length (normalizeAESKey key keySize)
          (stdCopy iv (List.replicate AES_BSIZE 0)) false).take i ∧
    0 ∉ decryptAES P c c.length key keySize iv heap := by
  refine ⟨?_, cString_no_zero _⟩
  simp only [decryptAES]
  generalize AES_cbc_encrypt P c c.length (normalizeAESKey key keySize)
      (stdCopy iv (List.replicate AES_BSIZE 0)) false = raw at hi hfirst
  have hlt : i < raw.length := by
    by_contra hge
    rw [List.getElem?_eq_none (by omega)] at hi
    exact Option.noConfusion hi
  have hsplit : raw = raw.take i ++ 0 :: raw.drop (i + 1) := by
    have h0 : raw[i] = 0 := by
      rw [List.getElem?_eq_getElem hlt] at hi
      exact Option.some.inj hi
    conv_lhs => rw [← List.take_append_drop i raw, List.drop_eq_getElem_cons hlt, h0]
  have hnz : 0 ∉ raw.take i := by
    intro hm
    obtain ⟨j, hj, hj0⟩ := List.getElem_of_mem hm
    have hji : j < i := by
      have := hj; simp only [List.length_take] at this; omega
    apply hfirst j hji
    rw [List.getElem_take] at hj0
    rw [List.getElem?_eq_getElem (by omega), hj0]
  conv_lhs => rw [hsplit, List.append_assoc, List.cons_append]
  exact cString_append_zero _ _ hnz


/-- Decrypting what `encryptAES` produced, with the IV it returned: the
plaintext comes back when its length is not a multiple of 16, because the
zero-extension of the last block ends the C-string read. When the length is a
multiple of 16 the decrypted buffer holds no zero byte and the read continues
into the memory behind the buffer. -/
theorem decryptAES_encryptAES (P : Primitives) (hP : P.BlockToBlock) (hI : P.AESInverts)
    (p key : List Nat) (keySize : Nat) (heap : List Nat)
    (hp : ∀ b ∈ p, b < 256) (h0 : 0 ∉ p) :
    decryptAES P (encryptAES P p p.length key keySize).1
        (encryptAES P p p.length key keySize).1.length key keySize
        (encryptAES P p p.length key keySize).2 heap
      = if p.length % 16 = 0 then p ++ cString heap else p := by
  obtain ⟨hiv, hivl, hivb⟩ := encryptAES_iv P p p.length key keySize
  obtain ⟨hc, hcl, _⟩ := encryptAES_ciphertext P hP p key keySize hp
  generalize (encryptAES P p p.length key keySize).2 = iv at hiv hivl hivb hc
  generalize (encryptAES P p p.length key keySize).1 = c at hc hcl
  have hcopy : stdCopy iv (List.replicate AES_BSIZE 0) = iv := by
    simp [stdCopy, AES_BSIZE, hivl]
  have hblocks : (c.length + 15) / 16 = (p.length + 15) / 16 := by rw [hcl]; omega
  have hraw : AES_cbc_encrypt P c c.length (normalizeAESKey key keySize) iv false
      = p ++ List.replicate (16 * ((p.length + 15) / 16) - p.length) 0 := by
    simp only [AES_cbc_encrypt, hblocks, Bool.false_eq_true, if_false]
    rw [hcl, hc]
    exact cbcDecrypt_cbcEncrypt P hP hI _ _ iv p hivl hivb hp (by omega)
  simp only [decryptAES, hcopy, hraw]
  split
  · next h =>
    have e : 16 * ((p.length + 15) / 16) - p.length = 0 := by omega
    rw [e, List.replicate_zero, List.append_nil]
    exact cString_append_of_not_mem p heap h0
  · next h =>
    obtain ⟨k, hk⟩ : ∃ k, 16 * ((p.length + 15) / 16) - p.length = k + 1 :=
      ⟨16 * ((p.length + 15) / 16) - p.length - 1, by omega⟩
    rw [hk, List.replicate_succ, List.append_assoc, List.cons_append]
    exact cString_append_zero p _ h0

end Ripe

namespace Demo

open Ripe

/-! ## The concrete collaborators have the properties assumed of them -/

theorem keyBlock_ok (key : List Nat) :
    (keyBlock key).length = 16 ∧ ∀ b ∈ keyBlock key, b < 256 := by
  refine ⟨padBlock_length _ (by simp), padBlock_bytes _ ?_⟩
  intro b hb
  obtain ⟨x, _, rfl⟩ := List.mem_map.mp hb
  exact Nat.mod_lt _ (by decide)

theorem prims_blockToBlock : prims.BlockToBlock := by
  intro key blk hl hb
  obtain ⟨hk1, hk2⟩ := keyBlock_ok key
  refine ⟨?_, ?_⟩
  · show (xorBytes blk (keyBlock key)).reverse.length = 16
    rw [List.length_reverse]
    exact xorBytes_length _ _ hl hk1
  · intro b hm
    have hm' : b ∈ (xorBytes blk (keyBlock key)).reverse := hm
    exact xorBytes_bytes _ _ hb hk2 b (List.mem_reverse.mp hm')

theorem prims_aesInverts : prims.AESInverts := by
  intro key blk hl _
  obtain ⟨hk1, _⟩ := keyBlock_ok key
  show xorBytes (xorBytes blk (keyBlock key)).reverse.reverse (keyBlock key) = blk
  rw [List.reverse_reverse]
  exact xorBytes_cancel _ _ (by omega)


theorem b64Val_b64Char (i : Nat) (h : i < 64) : b64Val (b64Char i) = some i := by
  revert i
  decide

theorem b64Char_ne_colon (i : Nat) : b64Char i ≠ colon := by
  unfold b64Char colon
  split
  · omega
  · split
    · omega
    · split
      · omega
      · split <;> omega

theorem filterMap_b64Char (i : Nat) (h : i < 64) (rest : List Nat) :
    (b64Char i :: rest).filterMap b64Val = i :: rest.filterMap b64Val := by
  rw [List.filterMap_cons, b64Val_b64Char i h]

theorem base64_roundtrip (n : Nat) : ∀ bytes : List Nat, bytes.length ≤ n →
    (∀ b ∈ bytes, b < 256) → base64Decode (base64Encode bytes) = bytes := by
  induction n with
  | zero =>
    intro bytes hl _
    have : bytes = [] := List.length_eq_zero.mp (by omega)
    subst this
    rfl
  | succ n ih =>
    intro bytes hl hb
    match bytes, hl, hb with
    | [], _, _ => rfl
    | [a], _, hb =>
      have ha : a < 256 := hb a (by simp)
      have h61 : b64Val 61 = none := by decide
      simp only [base64Decode, base64Encode]
      rw [filterMap_b64Char _ (by omega), filterMap_b64Char _ (by omega)]
      simp only [List.filterMap_cons, h61, List.filterMap_nil, sextetsToBytes]
      congr 1
      omega
    | [a, b], _, hb =>
      have ha : a < 256 := hb a (by simp)
      have hb' : b < 256 := hb b (by simp)
      have h61 : b64Val 61 = none := by decide
      simp only [base64Decode, base64Encode]
      rw [filterMap_b64Char _ (by omega), filterMap_b64Char _ (by omega),
        filterMap_b64Char _ (by omega)]
      simp only [List.filterMap_cons, h61, List.filterMap_nil, sextetsToBytes]
      congr 1
      · omega
      · congr 1
        omega
    | a :: b :: c :: rest, hl, hb =>
      have ha : a < 256 := hb a (by simp)
      have hb' : b < 256 := hb b (by simp)
      have hc : c < 256 := hb c (by simp)
      have hrest := ih rest (by simp at hl; omega) (fun x hx => hb x (by simp [hx]))
      simp only [base64Decode] at hrest ⊢
      simp only [base64Encode]
      rw [filterMap_b64Char _ (by omega), filterMap_b64Char _ (by omega),
        filterMap_b64Char _ (by omega), filterMap_b64Char _ (by omega)]
      simp only [sextetsToBytes]
      rw [hrest]
      congr 1
      · omega
      · congr 1
        · omega
        · congr 1
          omega

theorem prims_base64Inverts : prims.Base64Inverts :=
  fun bytes hb => base64_roundtrip bytes.length bytes (Nat.le_refl _) hb

theorem base64_no_colon (n : Nat) : ∀ bytes : List Nat, bytes.length ≤ n →
    colon ∉ base64Encode bytes := by
  induction n with
  | zero =>
    intro bytes hl
    have : bytes = [] := List.length_eq_zero.mp (by omega)
    subst this
    simp [base64Encode]
  | succ n ih =>
    intro bytes hl
    have h61 : colon ≠ 61 := by decide
    match bytes, hl with
    | [], _ => simp [base64Encode]
    | [a], _ =>
      simp only [base64Encode, List.mem_cons, List.mem_nil_iff, or_false, not_or]
      exact ⟨fun e => b64Char_ne_colon _ e.symm, fun e => b64Char_ne_colon _ e.symm, h61, h61⟩
    | [a, b], _ =>
      simp only [base64Encode, List.mem_cons, List.mem_nil_iff, or_false, not_or]
      exact ⟨fun e => b64Char_ne_colon _ e.symm, fun e => b64Char_ne_colon _ e.symm,
        fun e => b64Char_ne_colon _ e.symm, h61⟩
    | a :: b :: c :: rest, hl =>
      simp only [base64Encode, List.mem_cons, not_or]
      exact ⟨fun e => b64Char_ne_colon _ e.symm, fun e => b64Char_ne_colon _ e.symm,
        fun e => b64Char_ne_colon _ e.symm, fun e => b64Char_ne_colon _ e.symm,
        ih rest (by simp at hl; omega)⟩

theorem prims_base64NoColon : prims.Base64NoColon :=
  fun bytes => base64_no_colon bytes.length bytes (Nat.le_refl _)

end Demo

namespace Ripe

/-! ## Numbers as text -/

theorem showNatAux_eq (base : Nat) (hbase : 2 ≤ base) (n : Nat) :
    ∀ fuel acc, n < fuel → showNatAux base fuel n acc = showNat base n ++ acc := by
  induction n using Nat.strong_induction_on with
  | _ n ih =>
    intro fuel acc hf
    match fuel, hf with
    | f + 1, hf =>
      unfold showNat
      simp only [showNatAux]
      by_cases h0 : n / base = 0
      · simp [h0]
      · have hlt : n / base < n := by
          have hn : 0 < n := by
            rcases Nat.eq_zero_or_pos n with h | h
            · simp [h] at h0
            · exact h
          exact Nat.div_lt_self hn hbase
        rw [if_neg h0, if_neg h0, ih (n / base) hlt f _ (by omega),
          ih (n / base) hlt n _ hlt]
        simp

theorem showNat_step (base : Nat) (hbase : 2 ≤ base) (n : Nat) :
    showNat base n = if n / base = 0 then [digitChar (n % base)]
      else showNat base (n / base) ++ [digitChar (n % base)] := by
  by_cases h0 : n / base = 0
  · simp [showNat, showNatAux, h0]
  · have hlt : n / base < n := by
      have hn : 0 < n := by
        rcases Nat.eq_zero_or_pos n with h | h
        · simp [h] at h0
        · exact h
      exact Nat.div_lt_self hn hbase
    rw [if_neg h0]
    conv_lhs => rw [showNat, showNatAux, if_neg h0]
    exact showNatAux_eq base hbase (n / base) n _ hlt

theorem digitChar_dec (d : Nat) (h : d < 10) : digitChar d = 48 + d := by
  simp [digitChar, h]

theorem showNat_dec_spec (n : Nat) :
    (∀ c ∈ showNat 10 n, 48 ≤ c ∧ c ≤ 57) ∧ decValue (showNat 10 n) = n ∧
    0 < (showNat 10 n).length := by
  induction n using Nat.strong_induction_on with
  | _ n ih =>
    rw [showNat_step 10 (by decide) n]
    have hd : digitChar (n % 10) = 48 + n % 10 := digitChar_dec _ (Nat.mod_lt _ (by decide))
    by_cases h0 : n / 10 = 0
    · rw [if_pos h0, hd]
      refine ⟨?_, ?_, by simp⟩
      · intro c hc
        simp only [List.mem_singleton] at hc
        omega
      · simp [decValue]; omega
    · rw [if_neg h0, hd]
      obtain ⟨h1, h2, _⟩ := ih (n / 10) (by omega)
      refine ⟨?_, ?_, by simp⟩
      · intro c hc
        rcases List.mem_append.mp hc with hc | hc
        · exact h1 c hc
        · simp only [List.mem_singleton] at hc
          omega
      · unfold decValue at h2 ⊢
        rw [List.foldl_append, h2]
        simp
        omega

theorem showNat_dec_length (k : Nat) : ∀ n, n < 10 ^ (k + 1) → (showNat 10 n).length ≤ k + 1 := by
  induction k with
  | zero =>
    intro n hn
    rw [showNat_step 10 (by decide) n, if_pos (by omega)]
    simp
  | succ k ih =>
    intro n hn
    rw [showNat_step 10 (by decide) n]
    by_cases h0 : n / 10 = 0
    · rw [if_pos h0]; simp
    · rw [if_neg h0]
      have : n / 10 < 10 ^ (k + 1) := by
        rw [Nat.div_lt_iff_lt_mul (by decide)]
        calc n < 10 ^ (k + 1 + 1) := hn
          _ = 10 ^ (k + 1) * 10 := by rw [Nat.pow_succ]
      have := ih (n / 10) this
      simp
      omega

theorem showNat_dec_no_colon (n : Nat) : colon ∉ showNat 10 n := by
  intro h
  have := (showNat_dec_spec n).1 colon h
  simp [colon] at this

/-- A value that fits an unsigned 64-bit integer prints with at most 20
decimal digits. -/
theorem showNat_dec_length_u64 (n : Nat) (h : n < 2 ^ 64) : (showNat 10 n).length ≤ 20 :=
  showNat_dec_length 19 n (Nat.lt_of_lt_of_le h (by norm_num))

theorem setw_hex_byte (b : Nat) (h : b < 256) : setwFill 2 48 (showNat 16 b) = hexPair b := by
  rw [showNat_step 16 (by decide) b]
  by_cases h0 : b / 16 = 0
  · rw [if_pos h0]
    simp [setwFill, hexPair, h0, digitChar]
  · rw [if_neg h0, showNat_step 16 (by decide) (b / 16), if_pos (by omega)]
    have : b / 16 % 16 = b / 16 := Nat.mod_eq_of_lt (by omega)
    simp [setwFill, hexPair, this]

theorem hexOfBytes_eq (iv : List Nat) (h : ∀ b ∈ iv, b < 256) :
    hexOfBytes iv = iv.flatMap hexPair := by
  induction iv with
  | nil => rfl
  | cons b bs ih =>
    simp only [hexOfBytes, List.flatMap_cons] at ih ⊢
    rw [setw_hex_byte b (h b (by simp)), ih (fun x hx => h x (by simp [hx]))]

theorem flatMap_hexPair_length (iv : List Nat) : (iv.flatMap hexPair).length = 2 * iv.length := by
  induction iv with
  | nil => rfl
  | cons b bs ih => simp [List.flatMap_cons, hexPair, ih]; omega


/-! ## Hexadecimal tokens back to bytes -/

theorem digitChar_facts (d : Nat) (h : d < 16) :
    isSpace (digitChar d) = false ∧ digitChar d ≠ 45 ∧ digitChar d ≠ 43 ∧
    digitChar d ≠ 120 ∧ digitChar d ≠ 88 ∧ digitChar d ≠ 0 ∧ hexVal (digitChar d) = some d := by
  revert d
  decide

theorem readHexDigits_tokenEnd (rest : List Nat) (h : TokenEnd rest) (acc cnt : Nat) :
    readHexDigits rest acc cnt = (acc, cnt, rest) := by
  rcases h with rfl | ⟨t, rfl⟩
  · rfl
  · have : hexVal space = none := by decide
    simp [readHexDigits, this]

theorem spacedTail_tokenEnd (s : List Nat) : TokenEnd (spacedTail s) := by
  match s with
  | [] => exact Or.inl rfl
  | [_] => exact Or.inl rfl
  | a :: b :: rest => exact Or.inr ⟨_, rfl⟩

theorem extractHex_pair (hi lo : Nat) (hhi : hi < 16) (hlo : lo < 16) (rest : List Nat)
    (hrest : TokenEnd rest) :
    extractHex (digitChar hi :: digitChar lo :: rest) = some (hi * 16 + lo, rest) ∧
    extractHex (space :: digitChar hi :: digitChar lo :: rest) = some (hi * 16 + lo, rest) := by
  obtain ⟨h1, h2, h3, _, _, _, h7⟩ := digitChar_facts hi hhi
  obtain ⟨_, _, _, l4, l5, _, l7⟩ := digitChar_facts lo hlo
  have hsp : isSpace space = true := by decide
  have hdrop1 : (digitChar hi :: digitChar lo :: rest).dropWhile isSpace
      = digitChar hi :: digitChar lo :: rest := by
    simp [List.dropWhile_cons, h1]
  have hdrop2 : (space :: digitChar hi :: digitChar lo :: rest).dropWhile isSpace
      = digitChar hi :: digitChar lo :: rest := by
    simp [List.dropWhile_cons, h1, hsp]
  have hsign : stripSign (digitChar hi :: digitChar lo :: rest)
      = (false, digitChar hi :: digitChar lo :: rest) := by
    simp [stripSign, h2, h3]
  have hmark : skipHexMarker (digitChar hi :: digitChar lo :: rest)
      = digitChar hi :: digitChar lo :: rest := by
    simp [skipHexMarker, l4, l5]
  have hread : readHexDigits (digitChar hi :: digitChar lo :: rest) 0 0
      = (hi * 16 + lo, 2, rest) := by
    simp only [readHexDigits, h7, l7]
    rw [readHexDigits_tokenEnd rest hrest]
    simp
  have hval : ¬ 2 ^ 32 ≤ hi * 16 + lo := by omega
  constructor
  · simp only [extractHex, hdrop1, hsign, hmark, hread]
    simp
    omega
  · simp only [extractHex, hdrop2, hsign, hmark, hread]
    simp
    omega

theorem hexPair_value (b : Nat) : b / 16 * 16 + b % 16 = b := by omega

theorem ivToVectorLoop_spacedTail (bs : List Nat) :
    ∀ fuel acc, bs.length ≤ fuel → (∀ b ∈ bs, b < 256) →
      ivToVectorLoop fuel (spacedTail (bs.flatMap hexPair)) acc = acc ++ bs := by
  induction bs with
  | nil =>
    intro fuel acc _ _
    cases fuel with
    | zero => simp [ivToVectorLoop]
    | succ f =>
      have : extractHex [] = none := by decide
      simp [ivToVectorLoop, spacedTail, this]
  | cons b bs ih =>
    intro fuel acc hf hb
    have hb256 : b < 256 := hb b (by simp)
    match fuel, hf with
    | f + 1, hf =>
      have hstream : spacedTail ((b :: bs).flatMap hexPair)
          = space :: digitChar (b / 16) :: digitChar (b % 16)
              :: spacedTail (bs.flatMap hexPair) := by
        rw [List.flatMap_cons]
        rfl
      have hex := (extractHex_pair (b / 16) (b % 16) (by omega) (Nat.mod_lt _ (by decide))
        _ (spacedTail_tokenEnd (bs.flatMap hexPair))).2
      rw [hstream, ivToVectorLoop, hex]
      simp only
      rw [ih f _ (by simp at hf; omega) (fun x hx => hb x (by simp [hx])), hexPair_value,
        Nat.mod_eq_of_lt hb256]
      simp

theorem spacedTail_hex_no_zero (bs : List Nat) (h : ∀ b ∈ bs, b < 256) :
    0 ∉ spacedTail (bs.flatMap hexPair) := by
  induction bs with
  | nil => simp [spacedTail]
  | cons b bs ih =>
    have h1 := (digitChar_facts (b / 16) (by have := h b (by simp); omega)).2.2.2.2.2.1
    have h2 := (digitChar_facts (b % 16) (Nat.mod_lt _ (by decide))).2.2.2.2.2.1
    have := ih (fun x hx => h x (by simp [hx]))
    simp only [List.flatMap_cons, hexPair, List.cons_append, List.nil_append, spacedTail,
      List.mem_cons, not_or]
    exact ⟨by decide, fun e => h1 e.symm, fun e => h2 e.symm, this⟩

/-- The spaced form of the hex text of 16 bytes, and the bytes read back from
it. -/
theorem ivToVector_normalizeIV_hex (v : List Nat) (hl : v.length = 16)
    (hb : ∀ b ∈ v, b < 256) :
    normalizeIV (v.flatMap hexPair)
      = (true, (v.flatMap hexPair).take 2 ++ spacedTail ((v.drop 1).flatMap hexPair)) ∧
    ivToVector (normalizeIV (v.flatMap hexPair)).2 = v := by
  match v, hl with
  | b :: bs, hl =>
    have hbl : bs.length = 15 := by simpa using hl
    have hbs : ∀ x ∈ bs, x < 256 := fun x hx => hb x (by simp [hx])
    have hb256 : b < 256 := hb b (by simp)
    have hnorm : normalizeIV ((b :: bs).flatMap hexPair)
        = (true, digitChar (b / 16) :: digitChar (b % 16) :: spacedTail (bs.flatMap hexPair)) := by
      have := normalizeIV_eq (digitChar (b / 16)) (digitChar (b % 16)) (bs.flatMap hexPair)
        (by rw [flatMap_hexPair_length, hbl])
      simpa [List.flatMap_cons, hexPair] using this
    refine ⟨by rw [hnorm]; simp [List.flatMap_cons, hexPair], ?_⟩
    rw [hnorm]
    have h1 := (digitChar_facts (b / 16) (by omega)).2.2.2.2.2.1
    have h2 := (digitChar_facts (b % 16) (Nat.mod_lt _ (by decide))).2.2.2.2.2.1
    have hnz : 0 ∉ digitChar (b / 16) :: digitChar (b % 16) :: spacedTail (bs.flatMap hexPair) := by
      simp only [List.mem_cons, not_or]
      exact ⟨fun e => h1 e.symm, fun e => h2 e.symm, spacedTail_hex_no_zero bs hbs⟩
    have hcs : cString (digitChar (b / 16) :: digitChar (b % 16) :: spacedTail (bs.flatMap hexPair))
        = digitChar (b / 16) :: digitChar (b % 16) :: spacedTail (bs.flatMap hexPair) := by
      have := cString_append_of_not_mem _ [] hnz
      simpa [cString] using this
    have hex := (extractHex_pair (b / 16) (b % 16) (by omega) (Nat.mod_lt _ (by decide))
        _ (spacedTail_tokenEnd (bs.flatMap hexPair))).1
    have hlen : (spacedTail (bs.flatMap hexPair)).length = 3 * 15 :=
      (spacedTail_props 15 0 0 _ (by rw [flatMap_hexPair_length, hbl])).2.1
    simp only [ivToVector, hcs]
    rw [List.length_cons, ivToVectorLoop, hex]
    simp only
    rw [ivToVectorLoop_spacedTail bs _ _ (by simp only [List.length_cons]; omega) hbs,
      hexPair_value,
      Nat.mod_eq_of_lt hb256]
    simp

/-- C2: for every 16-byte IV `v`, the hex text that `prepareData` writes for it
(two zero-padded lowercase hex digits per byte, 32 characters), passed through
`normalizeIV` and then `ivToVector`, gives back exactly the bytes of `v` in
order. -/
theorem iv_hex_roundtrip (v : List Nat) (hl : v.length = 16) (hb : ∀ b ∈ v, b < 256) :
    hexOfBytes v = v.flatMap hexPair ∧ (hexOfBytes v).length = 32 ∧
    (normalizeIV (hexOfBytes v)).1 = true ∧
    ivToVector (normalizeIV (hexOfBytes v)).2 = v := by
  have he := hexOfBytes_eq v hb
  obtain ⟨h1, h2⟩ := ivToVector_normalizeIV_hex v hl hb
  rw [he]
  refine ⟨rfl, by rw [flatMap_hexPair_length, hl], by rw [h1], h2⟩

/-- Instance of C2 at the IV `00 01 02 .. 0f`. -/
theorem iv_hex_roundtrip_witness :
    ivToVector (normalizeIV (hexOfBytes (List.range 16))).2 = List.range 16 :=
  (iv_hex_roundtrip (List.range 16) (by decide) (by decide)).2.2.2


/-! ## The envelope -/

theorem findFirstOf_append (a b : List Nat) (c : Nat) (h : c ∉ a) :
    findFirstOf (a ++ c :: b) c = some a.length := by
  induction a with
  | nil => simp [findFirstOf]
  | cons x xs ih =>
    have hx : x ≠ c := fun e => h (by simp [e])
    have hxs : c ∉ xs := fun hm => h (List.mem_cons_of_mem _ hm)
    simp [findFirstOf, hx, ih hxs]

theorem findFirstOf_none (a : List Nat) (c : Nat) (h : c ∉ a) : findFirstOf a c = none := by
  induction a with
  | nil => rfl
  | cons x xs ih =>
    have hx : x ≠ c := fun e => h (by simp [e])
    have hxs : c ∉ xs := fun hm => h (List.mem_cons_of_mem _ hm)
    simp [findFirstOf, hx, ih hxs]

theorem drop_length_succ (a : List Nat) (c : Nat) (b : List Nat) :
    (a ++ c :: b).drop (a.length + 1) = b := by
  induction a with
  | nil => rfl
  | cons x xs ih => simp

theorem take_length_append (a b : List Nat) : (a ++ b).take a.length = a := by
  induction a with
  | nil => rfl
  | cons x xs ih => simp

theorem prepareData_eq (P : Primitives) (data : List Nat) (length : Nat) (key : List Nat)
    (keySize : Nat) (clientId : List Nat) :
    prepareData P data length key keySize clientId
      = showNat 10 (envelopePayload P data length key keySize clientId).length
          ++ colon :: envelopePayload P data length key keySize clientId := by
  obtain ⟨_, _, hivb⟩ := encryptAES_iv P data length key keySize
  have hhex := hexOfBytes_eq _ hivb
  simp only [prepareData, envelopePayload, hhex]
  by_cases hc : clientId = []
  · subst hc
    simp
  · have : clientId.length > 0 := List.length_pos.mpr hc
    simp [hc, this]

/-- C4: `prepareData` returns the decimal length of the payload, a colon and
the payload, where the payload is the 32-character lowercase hex form of the
IV that `encryptAES` returned, a colon, the client id followed by a colon when
the client id is not empty, and the Base64 text of the ciphertext. So the
decimal number in front of the first colon of the output is the number of
characters after that colon. -/
theorem prepareData_format (P : Primitives) (data : List Nat) (length : Nat) (key : List Nat)
    (keySize : Nat) (clientId : List Nat) :
    prepareData P data length key keySize clientId
      = showNat 10 (envelopePayload P data length key keySize clientId).length
          ++ [colon] ++ envelopePayload P data length key keySize clientId ∧
    ((encryptAES P data length key keySize).2.flatMap hexPair).length = 32 ∧
    (∀ c ∈ showNat 10 (envelopePayload P data length key keySize clientId).length,
      48 ≤ c ∧ c ≤ 57) ∧
    ∃ pos, findFirstOf (prepareData P data length key keySize clientId) colon = some pos ∧
      (prepareData P data length key keySize clientId).drop (pos + 1)
        = envelopePayload P data length key keySize clientId ∧
      decValue ((prepareData P data length key keySize clientId).take pos)
        = ((prepareData P data length key keySize clientId).drop (pos + 1)).length := by
  have he := prepareData_eq P data length key keySize clientId
  obtain ⟨_, hivl, _⟩ := encryptAES_iv P data length key keySize
  obtain ⟨hdig, hval, _⟩ :=
    showNat_dec_spec (envelopePayload P data length key keySize clientId).length
  refine ⟨by rw [he]; simp, by rw [flatMap_hexPair_length, hivl], hdig, ?_⟩
  refine ⟨(showNat 10 (envelopePayload P data length key keySize clientId).length).length,
    ?_, ?_, ?_⟩
  · rw [he]
    exact findFirstOf_append _ _ _ (showNat_dec_no_colon _)
  · rw [he, drop_length_succ]
  · rw [he, take_length_append, drop_length_succ, hval]

theorem stripLengthField_prepareData (P : Primitives) (data : List Nat) (length : Nat)
    (key : List Nat) (keySize : Nat) (clientId : List Nat) :
    stripLengthField (prepareData P data length key keySize clientId)
      = envelopePayload P data length key keySize clientId := by
  rw [prepareData_eq, stripLengthField, findFirstOf_append _ _ _ (showNat_dec_no_colon _)]
  exact drop_length_succ _ _ _

end Ripe

namespace RipeHelpers

open Ripe

/-- When the first colon of the input is not at index 32 (or there is none),
no IV is taken from the input: all of it is Base64-decoded and decrypted with
an empty IV vector, that is under the all-zero IV. -/
theorem decryptAES_without_iv (P : Primitives) (d hexKey heap : List Nat)
    (h : findFirstOf d colon ≠ some 32) :
    decryptAES P d hexKey [] true heap
      = (Ripe.decryptAES P (P.base64Decode d) (P.base64Decode d).length hexKey hexKey.length
          [] heap, []) ∧
    Ripe.decryptAES P (P.base64Decode d) (P.base64Decode d).length hexKey hexKey.length [] heap
      = cString (AES_cbc_encrypt P (P.base64Decode d) (P.base64Decode d).length
          (normalizeAESKey hexKey hexKey.length) (List.replicate 16 0) false ++ heap) := by
  constructor
  · have hiv : ivToVector [] = [] := by decide
    simp [decryptAES, h, decryptAESHex, hiv]
  · simp [Ripe.decryptAES, stdCopy, AES_BSIZE]


/-- C10: an output `e` of `prepareData` passed unmodified to
`RipeHelpers::decryptAES` with an empty explicit IV keeps its length field: the
first colon of `e` is at the index equal to the number of decimal digits of the
payload length, which is not 32 (a string length fits 64 bits, so it has at
most 20 digits); hence the extraction branch is not taken, no IV comes from the
envelope, and all of `e`, length field included, is Base64-decoded and
decrypted. -/
theorem decryptAES_keeps_length_field (P : Primitives) (data : List Nat) (length : Nat)
    (key : List Nat) (keySize : Nat) (clientId hexKey heap : List Nat)
    (hsize : (prepareData P data length key keySize clientId).length < 2 ^ 64) :
    findFirstOf (prepareData P data length key keySize clientId) colon
      = some (showNat 10 (envelopePayload P data length key keySize clientId).length).length ∧
    findFirstOf (prepareData P data length key keySize clientId) colon ≠ some 32 ∧
    decryptAES P (prepareData P data length key keySize clientId) hexKey [] true heap
      = (Ripe.decryptAES P (P.base64Decode (prepareData P data length key keySize clientId))
          (P.base64Decode (prepareData P data length key keySize clientId)).length
          hexKey hexKey.length [] heap, []) := by
  have he := prepareData_eq P data length key keySize clientId
  have hpos : findFirstOf (prepareData P data length key keySize clientId) colon
      = some (showNat 10 (envelopePayload P data length key keySize clientId).length).length := by
    rw [he]
    exact findFirstOf_append _ _ _ (showNat_dec_no_colon _)
  have hlen : (envelopePayload P data length key keySize clientId).length < 2 ^ 64 := by
    have : (envelopePayload P data length key keySize clientId).length
        ≤ (prepareData P data length key keySize clientId).length := by
      rw [he]; simp; omega
    omega
  have h20 := showNat_dec_length_u64 _ hlen
  have hne : findFirstOf (prepareData P data length key keySize clientId) colon ≠ some 32 := by
    rw [hpos]
    intro h
    have := Option.some.inj h
    omega
  exact ⟨hpos, hne, (decryptAES_without_iv P _ hexKey heap hne).1⟩

end RipeHelpers

namespace Ripe

theorem digitChar_ne_colon (d : Nat) : digitChar d ≠ colon := by
  unfold digitChar colon
  split <;> omega

theorem flatMap_hexPair_no_colon (v : List Nat) : colon ∉ v.flatMap hexPair := by
  induction v with
  | nil => simp
  | cons b bs ih =>
    simp only [List.flatMap_cons, hexPair, List.cons_append, List.nil_append, List.mem_cons,
      not_or]
    exact ⟨fun e => digitChar_ne_colon _ e.symm, fun e => digitChar_ne_colon _ e.symm, ih⟩

end Ripe

namespace RipeHelpers

open Ripe

/-- What the extraction branch of `RipeHelpers::decryptAES` makes of a text of
the shape `<32 characters>:[<client id>:]<rest>`, the client id and the rest
holding no colon: the 32 characters are spaced once and become `ivec`, the
client id is skipped and the rest is what gets Base64-decoded. -/
theorem decryptAES_shape (P : Primitives) (H clientId B hexKey heap : List Nat)
    (hH : H.length = 32) (hHc : colon ∉ H) (hcid : colon ∉ clientId) (hB : colon ∉ B) :
    decryptAES P (H ++ colon :: ((if clientId = [] then [] else clientId ++ [colon]) ++ B))
        hexKey [] true heap
      = (decryptAESHex P (P.base64Decode B) hexKey (normalizeIV H).2 heap, (normalizeIV H).2) := by
  have hn47 : (normalizeIV H).2.length = 47 := normalizeIV_length H hH
  have hn : ¬ (normalizeIV H).2.length = 32 := by rw [hn47]; decide
  have hpos : findFirstOf
      (H ++ colon :: ((if clientId = [] then [] else clientId ++ [colon]) ++ B)) colon
      = some 32 := by
    rw [findFirstOf_append _ _ _ hHc, hH]
  have htake : substrTo
      (H ++ colon :: ((if clientId = [] then [] else clientId ++ [colon]) ++ B)) 32 = H := by
    rw [substrTo, ← hH]
    exact take_length_append _ _
  have hdrop : substrFrom
      (H ++ colon :: ((if clientId = [] then [] else clientId ++ [colon]) ++ B)) (32 + 1)
      = (if clientId = [] then [] else clientId ++ [colon]) ++ B := by
    rw [substrFrom, ← hH]
    exact drop_length_succ _ _ _
  simp only [decryptAES, List.isEmpty_nil, Bool.and_self, if_true, hpos, htake, hdrop]
  by_cases hc : clientId = []
  · simp only [hc, if_true, List.nil_append, findFirstOf_none B colon hB, if_neg hn]
  · have h2 : findFirstOf (clientId ++ [colon] ++ B) colon = some clientId.length := by
      rw [List.append_assoc]
      exact findFirstOf_append _ _ _ hcid
    have h3 : substrFrom (clientId ++ [colon] ++ B) (clientId.length + 1) = B := by
      rw [List.append_assoc]
      exact drop_length_succ _ _ _
    simp only [hc, if_false, h2, h3, if_neg hn]

/-- The payload of `prepareData` handed to `RipeHelpers::decryptAES`: the
ciphertext is decoded from its Base64 text and decrypted with the IV read back
from the hex segment. -/
theorem decryptAES_payload (P : Primitives) (hC : P.Base64NoColon) (data : List Nat)
    (length : Nat) (key : List Nat) (keySize : Nat) (clientId hexKey heap : List Nat)
    (hcid : colon ∉ clientId) :
    decryptAES P (envelopePayload P data length key keySize clientId) hexKey [] true heap
      = (decryptAESHex P
          (P.base64Decode (P.base64Encode (encryptAES P data length key keySize).1)) hexKey
          (normalizeIV ((encryptAES P data length key keySize).2.flatMap hexPair)).2 heap,
        (normalizeIV ((encryptAES P data length key keySize).2.flatMap hexPair)).2) := by
  obtain ⟨_, hivl, _⟩ := encryptAES_iv P data length key keySize
  have hpay : envelopePayload P data length key keySize clientId
      = (encryptAES P data length key keySize).2.flatMap hexPair ++ colon ::
          ((if clientId = [] then [] else clientId ++ [colon])
            ++ P.base64Encode (encryptAES P data length key keySize).1) := by
    simp [envelopePayload]
  rw [hpay]
  exact decryptAES_shape P _ clientId _ hexKey heap
    (by rw [flatMap_hexPair_length, hivl]) (flatMap_hexPair_no_colon _) hcid (hC _)

/-- The envelope round trip: a payload written by `prepareData`, with its
length field removed, goes back through `RipeHelpers::decryptAES` to the
plaintext when the plaintext length is not a multiple of 16. When it is a
multiple of 16 the plaintext is followed by whatever the C-string read finds
behind the decrypted buffer. -/
theorem decryptAES_prepareData (P : Primitives) (hP : P.BlockToBlock) (hI : P.AESInverts)
    (hB : P.Base64Inverts) (hC : P.Base64NoColon) (p key clientId heap : List Nat)
    (hp : ∀ b ∈ p, b < 256) (h0 : 0 ∉ p) (hcid : colon ∉ clientId) :
    (decryptAES P (stripLengthField (prepareData P p p.length key key.length clientId))
        key [] true heap).1
      = if p.length % 16 = 0 then p ++ cString heap else p := by
  obtain ⟨_, hivl, hivb⟩ := encryptAES_iv P p p.length key key.length
  obtain ⟨_, _, hcb⟩ := encryptAES_ciphertext P hP p key key.length hp
  rw [stripLengthField_prepareData, decryptAES_payload P hC _ _ _ _ _ _ _ hcid]
  simp only [decryptAESHex]
  rw [hB _ hcb, (ivToVector_normalizeIV_hex _ hivl hivb).2]
  exact decryptAES_encryptAES P hP hI p key key.length heap hp h0

end RipeHelpers

namespace Ripe

/-! ## The token loop of `ivToVector` needs no more iterations than it is given -/

theorem readHexDigits_length (s : List Nat) : ∀ acc cnt,
    (readHexDigits s acc cnt).2.2.length + (readHexDigits s acc cnt).2.1 = s.length + cnt := by
  induction s with
  | nil => intro acc cnt; simp [readHexDigits]
  | cons c cs ih =>
    intro acc cnt
    cases h : hexVal c with
    | none => simp [readHexDigits, h]
    | some d =>
      simp only [readHexDigits, h]
      rw [ih]
      simp only [List.length_cons]
      omega

theorem stripSign_length (s : List Nat) : (stripSign s).2.length ≤ s.length := by
  cases s with
  | nil => simp [stripSign]
  | cons c t =>
    simp only [stripSign]
    split
    · simp
    · split <;> simp

theorem skipHexMarker_length (s : List Nat) : (skipHexMarker s).length ≤ s.length := by
  unfold skipHexMarker
  split
  · split
    · simp only [List.length_cons]; omega
    · exact Nat.le_refl _
  · exact Nat.le_refl _

theorem dropWhile_length (p : Nat → Bool) (s : List Nat) : (s.dropWhile p).length ≤ s.length := by
  induction s with
  | nil => simp
  | cons c t ih =>
    simp only [List.dropWhile_cons]
    split
    · simp only [List.length_cons]; omega
    · exact Nat.le_refl _

/-- A successful extraction consumes at least one character. -/
theorem extractHex_consumes (s : List Nat) (v : Nat) (rest : List Nat)
    (h : extractHex s = some (v, rest)) : rest.length < s.length := by
  unfold extractHex at h
  simp only at h
  split at h
  · exact Option.noConfusion h
  · next hcnt =>
    split at h
    · exact Option.noConfusion h
    · have hrest := congrArg (fun r => r.2) (Option.some.inj h)
      simp only at hrest
      have h1 := readHexDigits_length (skipHexMarker (stripSign (s.dropWhile isSpace)).2) 0 0
      have h2 := skipHexMarker_length (stripSign (s.dropWhile isSpace)).2
      have h3 := stripSign_length (s.dropWhile isSpace)
      have h4 := dropWhile_length isSpace s
      rw [← hrest]
      omega

/-- The result of the token loop is the same for every bound above the length
of the stream: the loop of `ivToVector` ends because an extraction fails. -/
theorem ivToVectorLoop_fuel (n : Nat) : ∀ (stream acc : List Nat) (fuel : Nat),
    stream.length ≤ n → stream.length < fuel →
    ivToVectorLoop fuel stream acc = ivToVectorLoop (stream.length + 1) stream acc := by
  induction n with
  | zero =>
    intro stream acc fuel hn hf
    have : stream = [] := List.length_eq_zero.mp (by omega)
    subst this
    match fuel, hf with
    | f + 1, _ =>
      have : extractHex [] = none := by decide
      simp [ivToVectorLoop, this]
  | succ n ih =>
    intro stream acc fuel hn hf
    match fuel, hf with
    | f + 1, hf =>
      simp only [ivToVectorLoop]
      cases h : extractHex stream with
      | none => rfl
      | some r =>
        obtain ⟨v, rest⟩ := r
        have hlt := extractHex_consumes stream v rest h
        simp only
        rw [ih rest _ f (by omega) (by omega), ih rest _ stream.length (by omega) hlt]

end Ripe

namespace Demo

open Ripe

/-! ## The code on concrete inputs -/

/-- Instance of C4 at the scenario: the hex form of the IV has 32 characters. -/
theorem prepareData_format_witness :
    ((encryptAES prims hello 11 key 32).2.flatMap hexPair).length = 32 :=
  (prepareData_format prims hello 11 key 32 client1).2.1

/-- Instance of C7 at the 11-byte plaintext: the ciphertext has 16 bytes. -/
theorem encryptAES_length_witness :
    prims.BlockToBlock ∧ (∀ b ∈ hello, b < 256) ∧
    (encryptAES prims hello hello.length key 32).1.length = 16 :=
  ⟨prims_blockToBlock, by decide,
    (encryptAES_length prims prims_blockToBlock hello key 32 (by decide)).1.trans (by decide)⟩

/-- Instance of C8: the raw decryption of the scenario ciphertext is the
plaintext followed by five zero bytes, the first of them at index 11, and the
result is the 11 bytes before it. -/
theorem decryptAES_cut_at_zero_witness :
    decryptAES prims (encryptAES prims hello 11 key 32).1
        (encryptAES prims hello 11 key 32).1.length key 32
        (encryptAES prims hello 11 key 32).2 heapBang
      = (hello ++ [0, 0, 0, 0, 0]).take 11 :=
  (decryptAES_cut_at_zero prims (encryptAES prims hello 11 key 32).1 key 32
    (encryptAES prims hello 11 key 32).2 heapBang 11 (by decide) (by decide)).1.trans
    (by decide)

/-- Instance of C10 at the scenario envelope, whose first colon is at index 2. -/
theorem decryptAES_keeps_length_field_witness :
    (prepareData prims hello 11 key 32 client1).length < 2 ^ 64 ∧
    findFirstOf (prepareData prims hello 11 key 32 client1) colon ≠ some 32 :=
  ⟨by decide,
    (RipeHelpers.decryptAES_keeps_length_field prims hello 11 key 32 client1 key heapBang
      (by decide)).2.1⟩

/-- C3 fails on the code for a plaintext of one full block: the decrypted
buffer holds the 16 plaintext bytes and no zero byte, the C-string read runs on
into the memory behind it, and the result is the plaintext followed by the
byte found there. -/
theorem decryptAES_encryptAES_full_block :
    (encryptAES prims oneBlock 16 key 32).1.length = 16 ∧
    AES_cbc_encrypt prims (encryptAES prims oneBlock 16 key 32).1 16 (normalizeAESKey key 32)
        (encryptAES prims oneBlock 16 key 32).2 false = oneBlock ∧
    decryptAES prims (encryptAES prims oneBlock 16 key 32).1 16 key 32
        (encryptAES prims oneBlock 16 key 32).2 heapBang = oneBlock ++ [33] ∧
    decryptAES prims (encryptAES prims oneBlock 16 key 32).1 16 key 32
        (encryptAES prims oneBlock 16 key 32).2 heapBang ≠ oneBlock := by
  decide

/-- C5 fails on the code for a plaintext of one full block, by the same read
past the decrypted buffer: the envelope round trip returns the plaintext
followed by the byte found behind the buffer. -/
theorem decryptAES_prepareData_full_block :
    (RipeHelpers.decryptAES prims
        (stripLengthField (prepareData prims oneBlock 16 key 32 client1)) key [] true
        heapBang).1 = oneBlock ++ [33] ∧
    (RipeHelpers.decryptAES prims
        (stripLengthField (prepareData prims oneBlock 16 key 32 client1)) key [] true
        heapBang).1 ≠ oneBlock := by
  decide

/-- The scenario of the envelope round trip: key
`0123456789abcdef0123456789abcdef`, plaintext `hello world`, client id
`client1`. The envelope has the length field, the 32 hex characters, the client
id and the Base64 text, and its payload decrypts to the plaintext. -/
theorem decryptAES_prepareData_hello :
    prepareData prims hello hello.length key key.length client1
      = bytesOf "65:a61380ed5ac734a10e7be855c22f9c09:client1:b/lLoTftLkT5ddIBst5H/g==" ∧
    (RipeHelpers.decryptAES prims
        (stripLengthField (prepareData prims hello hello.length key key.length client1))
        key [] true heapBang).1 = hello :=
  ⟨by decide,
    (RipeHelpers.decryptAES_prepareData prims prims_blockToBlock prims_aesInverts
      prims_base64Inverts prims_base64NoColon hello key client1 heapBang (by decide)
      (by decide) (by decide)).trans (by decide)⟩

end Demo
